import Mathlib

/-!
Verification of the query fan-out simulator core.

The development shallowly embeds the two Python modules:
* `fanout_generator.py` — locale detection (`is_japanese`), the generation
  adapter (`generate_fanout_google_genai`) with its seed validation and
  JSON-decode fallback, and the CSV exporter (`export_to_csv`);
* `visualize_sunburst.py` — the hierarchy builder (`create_sunburst_data`)
  with the fixed category colour table (`CATEGORY_COLORS`).

External capabilities (the Gemini client, `json.loads`, the rendering
library, the filesystem) are modelled at their boundary: the streamed
response is a list of chunks, JSON parsing is an abstract
`String → Option Json` parameter (`none` models any parse exception), and
the filesystem is a map from paths to file contents.
-/

set_option autoImplicit false

/-- JSON values, as produced by the external `json.loads`. Object entries
keep insertion order, mirroring Python dictionaries. -/
inductive Json where
  | null : Json
  | bool : Bool → Json
  | num : Int → Json
  | str : String → Json
  | arr : List Json → Json
  | obj : List (String × Json) → Json

/-- First-match lookup in an ordered association list; models Python
dictionary indexing (Python dicts have unique keys). -/
def dictGet {α : Type} : List (String × α) → String → Option α
  | [], _ => none
  | (k, v) :: rest, key => if k = key then some v else dictGet rest key

/-- Models the subscript `data["categories"]` from
`fanout_generator.py` line 200: succeeds only when the parsed value is an
object that has a `categories` key (a `KeyError` or `TypeError` otherwise,
caught by the surrounding `except`). -/
def getCategories (j : Json) : Option Json :=
  match j with
  | Json.obj kvs => dictGet kvs "categories"
  | _ => none

/-- The fallback value built at `fanout_generator.py` line 202:
a one-key object mapping `Raw` to the singleton list holding the full
undecoded response text. -/
def rawFallback (text : String) : Json :=
  Json.obj [("Raw", Json.arr [Json.str text])]

/-- The decode step of `generate_fanout_google_genai`
(`fanout_generator.py` lines 198-202): `parsed` is the outcome of
`json.loads(text)` (`none` models a raised exception); on success the
`categories` member is returned unchanged, and any failure falls back to
the `Raw` wrapper. -/
def decodeCategories (parsed : Option Json) (text : String) : Json :=
  match parsed with
  | some j =>
    match getCategories j with
    | some c => c
    | none => rawFallback text
  | none => rawFallback text

/-- The character class of the regex at `fanout_generator.py` line 56:
U+3040-U+30FF, U+3400-U+4DBF and U+4E00-U+9FFF. -/
def inJapaneseCharClass (c : Char) : Bool :=
  (0x3040 ≤ c.toNat && c.toNat ≤ 0x30FF) ||
  (0x3400 ≤ c.toNat && c.toNat ≤ 0x4DBF) ||
  (0x4E00 ≤ c.toNat && c.toNat ≤ 0x9FFF)

/-- `is_japanese` from `fanout_generator.py` line 55: `re.search` over a
single-character class holds exactly when some character of the text lies
in the class. -/
def is_japanese (text : String) : Bool :=
  text.data.any inJapaneseCharClass

/-- The locale default `'ja' if is_japanese(seed) else 'en'`
(`fanout_generator.py` lines 159 and 260). -/
def detect_locale (text : String) : String :=
  if is_japanese text then "ja" else "en"

/-- Modelled from the spec: the Unicode hiragana block U+3040-U+309F
(the spec words of section 4.1; the source only has the merged regex). -/
def isHiraganaCP (c : Char) : Bool :=
  0x3040 ≤ c.toNat && c.toNat ≤ 0x309F

/-- Modelled from the spec: the Unicode katakana block U+30A0-U+30FF. -/
def isKatakanaCP (c : Char) : Bool :=
  0x30A0 ≤ c.toNat && c.toNat ≤ 0x30FF

/-- Modelled from the spec: the CJK unified ideograph ranges
(extension A U+3400-U+4DBF and the base block U+4E00-U+9FFF). -/
def isCJKIdeographCP (c : Char) : Bool :=
  (0x3400 ≤ c.toNat && c.toNat ≤ 0x4DBF) ||
  (0x4E00 ≤ c.toNat && c.toNat ≤ 0x9FFF)

/-- Models the Python `str.strip()` used at `fanout_generator.py`
line 155: drop whitespace from both ends. -/
def pyStrip (s : String) : String :=
  ⟨((s.data.dropWhile Char.isWhitespace).reverse.dropWhile
      Char.isWhitespace).reverse⟩

/-- The eight canonical category names, as fixed in `categories_schema`
(`fanout_generator.py` lines 132-141) and the prompt template. -/
def canonicalCategories : List String :=
  ["曖昧さの解消",
   "潜在ニーズの顕在化",
   "詳細深掘りの誘導（次の質問提案）",
   "主張の賛否エビデンス収集",
   "エンティティ取得（人・場所・組織など）",
   "関連性の高い文書予測",
   "セッション文脈の維持（最近の行動・状態を反映）",
   "ユーザー個別化（過去検索や位置・時間などの信号を活用）"]

/-- Whether a JSON value is an array of strings of length at most
`maxPerCategory`. -/
def isBoundedStringArray (maxPerCategory : Nat) (j : Json) : Bool :=
  match j with
  | Json.arr xs =>
    decide (xs.length ≤ maxPerCategory) &&
    xs.all (fun x => match x with | Json.str _ => true | _ => false)
  | _ => false

/-- The schema of specification section 4.2, mirroring `categories_schema`
(`fanout_generator.py` lines 112-147) plus the caller-supplied
per-category bound: an object whose key set is exactly the eight canonical
category names and whose values are bounded string arrays. -/
def conformsToCategoriesSchema (maxPerCategory : Nat) (j : Json) : Bool :=
  match j with
  | Json.obj kvs =>
    (kvs.map Prod.fst).all (fun k => canonicalCategories.contains k) &&
    canonicalCategories.all (fun k => (kvs.map Prod.fst).contains k) &&
    kvs.all (fun kv => isBoundedStringArray maxPerCategory kv.2)
  | _ => false

/-- The external interactions the generation adapter performs after seed
validation, in program order (`fanout_generator.py` lines 161-194):
loading `google.genai`, building the client from the environment
credential, and issuing the streamed network call. -/
inductive ExternalStep where
  | dependencyLoad : ExternalStep
  | credentialLookup : ExternalStep
  | networkCall : ExternalStep
deriving DecidableEq

/-- `generate_fanout_google_genai` (`fanout_generator.py` lines 154-202).
The external boundary is explicit: `chunks` are the streamed response
pieces (concatenated in arrival order, line 194-196) and `parsed` is the
abstract `json.loads`. The first component records which external
interactions happened; the second is the raised error or the returned
category map. -/
def generate_fanout_google_genai (seed : String) (chunks : List String)
    (parsed : String → Option Json) :
    List ExternalStep × Except String Json :=
  let s := pyStrip seed
  if s = "" then
    ([], Except.error "Seed keyword must be non-empty")
  else
    let text := String.join chunks
    ([ExternalStep.dependencyLoad, ExternalStep.credentialLookup,
      ExternalStep.networkCall],
     Except.ok (decodeCategories (parsed text) text))

/-- One flattened CSV row: seed, locale, category, subquery
(`export_to_csv`, `fanout_generator.py` lines 209-222). -/
structure Record where
  seed : String
  locale : String
  category : String
  subquery : String
deriving DecidableEq

/-- The row list written by `export_to_csv`: one record per subquery, in
map order then list order (`fanout_generator.py` lines 220-222). -/
def flattenRows (seed locale : String) :
    List (String × List String) → List Record
  | [] => []
  | (c, qs) :: rest =>
    qs.map (fun q => Record.mk seed locale c q) ++ flattenRows seed locale rest

/-- One CSV field under the default dialect of the Python `csv` module:
quoted, with quote doubling, exactly when it contains a delimiter, quote
or line break. -/
def csvField (s : String) : String :=
  if s.data.any (fun c => c = ',' || c = '"' || c = '\r' || c = '\n') then
    "\"" ++ s.replace "\"" "\"\"" ++ "\""
  else
    s

/-- One CSV line with the default `\r\n` terminator of `csv.writer`. -/
def csvLine (fields : List String) : String :=
  String.intercalate "," (fields.map csvField) ++ "\r\n"

/-- The CSV data rows of `export_to_csv`. -/
def csvBody (seed locale : String) : List (String × List String) → String
  | [] => ""
  | (c, qs) :: rest =>
    String.join (qs.map (fun q => csvLine [seed, locale, c, q])) ++
    csvBody seed locale rest

/-- The full byte content written by `export_to_csv`
(`fanout_generator.py` lines 209-222): header row then one row per
subquery. -/
def export_to_csv_text (seed locale : String)
    (categories : List (String × List String)) : String :=
  csvLine ["seed", "locale", "category", "subquery"] ++
  csvBody seed locale categories

/-- `CATEGORY_COLORS` from `visualize_sunburst.py` lines 22-31. -/
def CATEGORY_COLORS : List (String × String) :=
  [("曖昧さの解消", "#E74C3C"),
   ("潜在ニーズの顕在化", "#1ABC9C"),
   ("詳細深掘りの誘導（次の質問提案）", "#3498DB"),
   ("主張の賛否エビデンス収集", "#E67E22"),
   ("エンティティ取得（人・場所・組織など）", "#2ECC71"),
   ("関連性の高い文書予測", "#F39C12"),
   ("セッション文脈の維持（最近の行動・状態を反映）", "#9B59B6"),
   ("ユーザー個別化（過去検索や位置・時間などの信号を活用）", "#E91E63")]

/-- `CATEGORY_COLORS.get(category, "#CCCCCC")`
(`visualize_sunburst.py` lines 85 and 93). -/
def categoryColor (cat : String) : String :=
  (dictGet CATEGORY_COLORS cat).getD "#CCCCCC"

/-- The level of a node in the sunburst tree. The specification data
model (section 3) distinguishes root, category node and leaf; the code
emits the three kinds at three distinct sites of
`create_sunburst_data`. -/
inductive NodeKind where
  | root : NodeKind
  | category : NodeKind
  | leaf : NodeKind
deriving DecidableEq

/-- One sunburst node: the parallel array entries built by
`create_sunburst_data` (label, parent, value, color, hover text),
tagged with its emission site. -/
structure SNode where
  label : String
  parent : String
  value : Nat
  color : String
  hover : String
  kind : NodeKind
deriving DecidableEq

/-- Grouping state: category name to its subqueries, in first-seen
order (a Python dict of lists). -/
abbrev Groups := List (String × List String)

/-- Appending one row to the grouping dict
(`visualize_sunburst.py` lines 59-64): a new category is appended at the
end, an existing one has the subquery appended to its list. -/
def addToGroups : Groups → String → String → Groups
  | [], cat, q => [(cat, [q])]
  | (c, ss) :: rest, cat, q =>
    if c = cat then (c, ss ++ [q]) :: rest
    else (c, ss) :: addToGroups rest cat q

/-- One iteration of the grouping loop over the CSV rows. -/
def groupStep (gs : Groups) (r : Record) : Groups :=
  addToGroups gs r.category r.subquery

/-- The grouping loop of `create_sunburst_data`
(`visualize_sunburst.py` lines 58-64). -/
def groupByCategory (rows : List Record) : Groups :=
  rows.foldl groupStep []

/-- The category names present in the grouping dict, in order. -/
def groupKeys (gs : Groups) : List String :=
  gs.map Prod.fst

/-- Total subquery count over the groups
(`total_subqueries`, `visualize_sunburst.py` line 67). -/
def sumSizes (gs : Groups) : Nat :=
  (gs.map (fun p => p.2.length)).sum

/-- The category node emitted at `visualize_sunburst.py` lines 81-86. -/
def categoryNode (seed cat : String) (subs : List String) : SNode :=
  { label := cat
    parent := seed
    value := subs.length
    color := categoryColor cat
    hover := "<b>" ++ cat ++ "</b><br>サブクエリ数: " ++ toString subs.length
    kind := NodeKind.category }

/-- The leaf node emitted at `visualize_sunburst.py` lines 89-94. -/
def leafNode (cat subquery : String) : SNode :=
  { label := subquery
    parent := cat
    value := 1
    color := categoryColor cat
    hover := subquery
    kind := NodeKind.leaf }

/-- The root node emitted at `visualize_sunburst.py` lines 73-77. -/
def rootNode (seed : String) (total : Nat) : SNode :=
  { label := seed
    parent := ""
    value := total
    color := "#E8E8E8"
    hover := "<b>" ++ seed ++ "</b><br>全" ++ toString total ++ "件のサブクエリ"
    kind := NodeKind.root }

/-- The category and leaf nodes, per category in first-seen order
(the loop at `visualize_sunburst.py` lines 80-94). -/
def groupNodes (seed : String) : Groups → List SNode
  | [] => []
  | (c, ss) :: rest =>
    (categoryNode seed c ss :: ss.map (leafNode c)) ++ groupNodes seed rest

/-- `create_sunburst_data` (`visualize_sunburst.py` lines 44-98): rejects
empty input, takes the root label from the first record, groups rows by
category and emits root, category and leaf nodes. `none` models the
raised `ValueError`. -/
def create_sunburst_data (csv_data : List Record) : Option (List SNode) :=
  match csv_data with
  | [] => none
  | r :: _ =>
    let gs := groupByCategory csv_data
    some (rootNode r.seed (sumSizes gs) :: groupNodes r.seed gs)

/-- The five parallel arrays returned by `create_sunburst_data`. -/
structure SunburstArrays where
  labels : List String
  parents : List String
  values : List Nat
  colors : List String
  hover_text : List String
deriving DecidableEq

/-- Projection of the node list to the returned parallel arrays. -/
def toArrays (ns : List SNode) : SunburstArrays :=
  { labels := ns.map SNode.label
    parents := ns.map SNode.parent
    values := ns.map SNode.value
    colors := ns.map SNode.color
    hover_text := ns.map SNode.hover }

/-- A filesystem boundary: path to file contents. -/
def FileSystem : Type := String → Option String

/-- Whole-file overwrite, as `open(filepath, 'w')` does. -/
def writeFile (fs : FileSystem) (path content : String) : FileSystem :=
  fun p => if p = path then some content else fs p

/-- The non-generation pipeline stages for one run: export the stubbed
category map to CSV at `path`, then build the hierarchy arrays from the
flattened rows (`main.py` lines 127 and 137; the CSV read-back of
`load_csv_data` is external I/O that returns the written rows). -/
def runPipeline (seed locale : String) (stub : List (String × List String))
    (path : String) (fs : FileSystem) : FileSystem × Option SunburstArrays :=
  let fs2 := writeFile fs path (export_to_csv_text seed locale stub)
  (fs2, (create_sunburst_data (flattenRows seed locale stub)).map toArrays)

/-! ### Grouping lemmas -/

theorem mem_groupKeys_addToGroups (gs : Groups) (cat q x : String) :
    x ∈ groupKeys (addToGroups gs cat q) ↔ x ∈ groupKeys gs ∨ x = cat := by
  induction gs with
  | nil => simp [addToGroups, groupKeys]
  | cons p rest ih =>
    obtain ⟨c, ss⟩ := p
    by_cases h : c = cat
    · subst h
      simp [addToGroups, groupKeys]
      tauto
    · simp only [addToGroups, if_neg h, groupKeys, List.map_cons, List.mem_cons] at ih ⊢
      rw [ih]
      tauto

theorem nodup_groupKeys_addToGroups (gs : Groups) (cat q : String)
    (h : (groupKeys gs).Nodup) : (groupKeys (addToGroups gs cat q)).Nodup := by
  induction gs with
  | nil => simp [addToGroups, groupKeys]
  | cons p rest ih =>
    obtain ⟨c, ss⟩ := p
    simp only [groupKeys, List.map_cons, List.nodup_cons] at h
    by_cases hc : c = cat
    · subst hc
      simpa [addToGroups, groupKeys] using h
    · simp only [addToGroups, if_neg hc, groupKeys, List.map_cons,
        List.nodup_cons]
      refine ⟨?_, ih h.2⟩
      intro hmem
      rcases (mem_groupKeys_addToGroups rest cat q c).mp hmem with h1 | h1
      · exact h.1 h1
      · exact hc h1

theorem sumSizes_addToGroups (gs : Groups) (cat q : String) :
    sumSizes (addToGroups gs cat q) = sumSizes gs + 1 := by
  induction gs with
  | nil => simp [addToGroups, sumSizes]
  | cons p rest ih =>
    obtain ⟨c, ss⟩ := p
    by_cases h : c = cat
    · subst h
      simp [addToGroups, sumSizes]
      omega
    · simp only [addToGroups, if_neg h, sumSizes, List.map_cons, List.sum_cons] at ih ⊢
      omega

theorem sumSizes_foldl (rows : List Record) (gs : Groups) :
    sumSizes (rows.foldl groupStep gs) = sumSizes gs + rows.length := by
  induction rows generalizing gs with
  | nil => simp
  | cons r rest ih =>
    simp only [List.foldl_cons, List.length_cons, ih, groupStep,
      sumSizes_addToGroups]
    omega

theorem mem_groupKeys_foldl (rows : List Record) (gs : Groups) (x : String) :
    x ∈ groupKeys (rows.foldl groupStep gs) ↔
      x ∈ groupKeys gs ∨ ∃ r ∈ rows, r.category = x := by
  induction rows generalizing gs with
  | nil => simp
  | cons r rest ih =>
    simp only [List.foldl_cons, ih, groupStep, mem_groupKeys_addToGroups,
      List.mem_cons]
    constructor
    · rintro (⟨h1 | h1⟩ | ⟨r2, h2, h3⟩)
      · exact Or.inl h1
      · exact Or.inr ⟨r, Or.inl rfl, h1.symm⟩
      · exact Or.inr ⟨r2, Or.inr h2, h3⟩
    · rintro (h1 | ⟨r2, h2 | h2, h3⟩)
      · exact Or.inl (Or.inl h1)
      · subst h2
        exact Or.inl (Or.inr h3.symm)
      · exact Or.inr ⟨r2, h2, h3⟩

theorem nodup_groupKeys_foldl (rows : List Record) (gs : Groups)
    (h : (groupKeys gs).Nodup) : (groupKeys (rows.foldl groupStep gs)).Nodup := by
  induction rows generalizing gs with
  | nil => exact h
  | cons r rest ih =>
    exact ih _ (nodup_groupKeys_addToGroups gs r.category r.subquery h)

theorem nodup_groupKeys_groupBy (rows : List Record) :
    (groupKeys (groupByCategory rows)).Nodup :=
  nodup_groupKeys_foldl rows [] (by simp [groupKeys])

theorem sumSizes_groupBy (rows : List Record) :
    sumSizes (groupByCategory rows) = rows.length := by
  simpa [sumSizes, groupByCategory] using sumSizes_foldl rows []

theorem groupKeys_groupBy_length (rows : List Record) :
    (groupKeys (groupByCategory rows)).length =
      (rows.map Record.category).dedup.length := by
  have hnd : (groupKeys (groupByCategory rows)).Nodup :=
    nodup_groupKeys_groupBy rows
  have hmem : ∀ x, x ∈ groupKeys (groupByCategory rows) ↔
      x ∈ rows.map Record.category := by
    intro x
    rw [groupByCategory, mem_groupKeys_foldl]
    simp [groupKeys, List.mem_map]
  have hfs : (groupKeys (groupByCategory rows)).toFinset =
      (rows.map Record.category).toFinset := by
    ext x
    simp only [List.mem_toFinset]
    exact hmem x
  calc (groupKeys (groupByCategory rows)).length
      = (groupKeys (groupByCategory rows)).toFinset.card :=
        (List.toFinset_card_of_nodup hnd).symm
    _ = (rows.map Record.category).toFinset.card := by rw [hfs]
    _ = (rows.map Record.category).dedup.length := List.card_toFinset _

/-! ### Node list lemmas -/

/-- Number of leaf nodes whose parent is the given label. -/
def countLeavesUnder (ns : List SNode) (lbl : String) : Nat :=
  (ns.filter (fun m => decide (m.kind = NodeKind.leaf ∧ m.parent = lbl))).length

/-- The values carried by the category nodes of a node list. -/
def categoryValues (ns : List SNode) : List Nat :=
  (ns.filter (fun m => decide (m.kind = NodeKind.category))).map SNode.value

theorem mem_groupNodes_iff (seed : String) (gs : Groups) (n : SNode) :
    n ∈ groupNodes seed gs ↔
      ∃ c ss, (c, ss) ∈ gs ∧
        (n = categoryNode seed c ss ∨ ∃ q ∈ ss, n = leafNode c q) := by
  induction gs with
  | nil => simp [groupNodes]
  | cons p rest ih =>
    obtain ⟨c0, ss0⟩ := p
    simp only [groupNodes, List.cons_append, List.mem_cons, List.mem_append,
      List.mem_map, ih, List.mem_cons, Prod.mk.injEq]
    constructor
    · rintro (h | h | h)
      · exact ⟨c0, ss0, Or.inl ⟨rfl, rfl⟩, Or.inl h⟩
      · obtain ⟨q, hq, hn⟩ := h
        exact ⟨c0, ss0, Or.inl ⟨rfl, rfl⟩, Or.inr ⟨q, hq, hn.symm⟩⟩
      · obtain ⟨c, ss, hm, hn⟩ := h
        exact ⟨c, ss, Or.inr hm, hn⟩
    · rintro ⟨c, ss, ⟨hc, hss⟩ | hm, hn⟩
      · subst hc; subst hss
        rcases hn with hn | ⟨q, hq, hn⟩
        · exact Or.inl hn
        · exact Or.inr (Or.inl ⟨q, hq, hn.symm⟩)
      · exact Or.inr (Or.inr ⟨c, ss, hm, hn⟩)

theorem length_groupNodes (seed : String) (gs : Groups) :
    (groupNodes seed gs).length = gs.length + sumSizes gs := by
  induction gs with
  | nil => simp [groupNodes, sumSizes]
  | cons p rest ih =>
    obtain ⟨c, ss⟩ := p
    simp only [groupNodes, List.cons_append, List.length_cons,
      List.length_append, List.length_map, ih, List.length_cons, sumSizes,
      List.map_cons, List.sum_cons]
    omega


theorem countLeavesUnder_append (l1 l2 : List SNode) (lbl : String) :
    countLeavesUnder (l1 ++ l2) lbl =
      countLeavesUnder l1 lbl + countLeavesUnder l2 lbl := by
  simp [countLeavesUnder, List.filter_append]

theorem countLeavesUnder_leafBlock (lbl c : String) (ss : List String) :
    countLeavesUnder (ss.map (leafNode c)) lbl =
      if c = lbl then ss.length else 0 := by
  induction ss with
  | nil => simp [countLeavesUnder]
  | cons q rest ih =>
    by_cases h : c = lbl
    · subst h
      simp only [countLeavesUnder, List.map_cons, List.filter_cons] at ih ⊢
      rw [if_pos (by simp [leafNode])]
      simp only [List.length_cons, ih]
      simp
    · simp only [countLeavesUnder, List.map_cons, List.filter_cons] at ih ⊢
      rw [if_neg (by simp [leafNode, h])]
      rw [ih]
      simp [h]

theorem countLeavesUnder_groupNodes_cons (seed c lbl : String)
    (ss : List String) (rest : Groups) :
    countLeavesUnder (groupNodes seed ((c, ss) :: rest)) lbl =
      (if c = lbl then ss.length else 0) +
        countLeavesUnder (groupNodes seed rest) lbl := by
  show countLeavesUnder ((categoryNode seed c ss :: ss.map (leafNode c)) ++
    groupNodes seed rest) lbl = _
  rw [countLeavesUnder_append]
  have hcat : countLeavesUnder (categoryNode seed c ss :: ss.map (leafNode c))
      lbl = countLeavesUnder (ss.map (leafNode c)) lbl := by
    simp only [countLeavesUnder, List.filter_cons]
    rw [if_neg (by simp [categoryNode])]
  rw [hcat, countLeavesUnder_leafBlock]

theorem countLeaves_groupNodes_notMem (seed lbl : String) (gs : Groups)
    (h : lbl ∉ groupKeys gs) :
    countLeavesUnder (groupNodes seed gs) lbl = 0 := by
  induction gs with
  | nil => simp [groupNodes, countLeavesUnder]
  | cons p rest ih =>
    obtain ⟨c, ss⟩ := p
    simp only [groupKeys, List.map_cons, List.mem_cons, not_or] at h
    rw [countLeavesUnder_groupNodes_cons,
      if_neg (fun hh => h.1 hh.symm),
      ih (by simpa [groupKeys] using h.2)]

theorem countLeaves_groupNodes (seed : String) (gs : Groups) (c : String)
    (ss : List String) (hnd : (groupKeys gs).Nodup) (hm : (c, ss) ∈ gs) :
    countLeavesUnder (groupNodes seed gs) c = ss.length := by
  induction gs with
  | nil => cases hm
  | cons p rest ih =>
    obtain ⟨c0, ss0⟩ := p
    simp only [groupKeys, List.map_cons, List.nodup_cons] at hnd
    rw [countLeavesUnder_groupNodes_cons]
    rcases List.mem_cons.mp hm with heq | hmem
    · injection heq with h1 h2
      subst h1; subst h2
      rw [if_pos rfl,
        countLeaves_groupNodes_notMem seed c rest
          (by simpa [groupKeys] using hnd.1)]
      omega
    · have hck : c ∈ groupKeys rest := by
        simp only [groupKeys, List.mem_map]
        exact ⟨(c, ss), hmem, rfl⟩
      rw [if_neg (fun hh => hnd.1 (by rw [hh]; exact hck)),
        ih hnd.2 hmem]
      omega

theorem categoryValues_append (l1 l2 : List SNode) :
    categoryValues (l1 ++ l2) = categoryValues l1 ++ categoryValues l2 := by
  simp [categoryValues, List.filter_append]

theorem categoryValues_leafBlock (c : String) (ss : List String) :
    categoryValues (ss.map (leafNode c)) = [] := by
  induction ss with
  | nil => simp [categoryValues]
  | cons q rest ih =>
    simp only [categoryValues, List.map_cons, List.filter_cons] at ih ⊢
    rw [if_neg (by simp [leafNode])]
    exact ih

theorem categoryValues_groupNodes_cons (seed c : String) (ss : List String)
    (rest : Groups) :
    categoryValues (groupNodes seed ((c, ss) :: rest)) =
      ss.length :: categoryValues (groupNodes seed rest) := by
  show categoryValues ((categoryNode seed c ss :: ss.map (leafNode c)) ++
    groupNodes seed rest) = _
  rw [categoryValues_append]
  have hcat : categoryValues (categoryNode seed c ss :: ss.map (leafNode c)) =
      ss.length :: categoryValues (ss.map (leafNode c)) := by
    simp only [categoryValues, List.filter_cons]
    rw [if_pos (by simp [categoryNode])]
    rfl
  rw [hcat, categoryValues_leafBlock]
  rfl

theorem catValues_groupNodes (seed : String) (gs : Groups) :
    (categoryValues (groupNodes seed gs)).sum = sumSizes gs := by
  induction gs with
  | nil => simp [groupNodes, categoryValues, sumSizes]
  | cons p rest ih =>
    obtain ⟨c, ss⟩ := p
    rw [categoryValues_groupNodes_cons]
    simp only [List.sum_cons, ih, sumSizes, List.map_cons, List.sum_cons]

theorem catCount_groupNodes (seed : String) (gs : Groups) :
    ((groupNodes seed gs).filter
        (fun m => decide (m.kind = NodeKind.category))).length = gs.length := by
  induction gs with
  | nil => simp [groupNodes]
  | cons p rest ih =>
    obtain ⟨c, ss⟩ := p
    have : (groupNodes seed ((c, ss) :: rest)).filter
        (fun m => decide (m.kind = NodeKind.category)) =
        categoryNode seed c ss ::
          (groupNodes seed rest).filter
            (fun m => decide (m.kind = NodeKind.category)) := by
      show ((categoryNode seed c ss :: ss.map (leafNode c)) ++
        groupNodes seed rest).filter _ = _
      rw [List.cons_append, List.filter_cons, if_pos (by simp [categoryNode]),
        List.filter_append]
      have : (ss.map (leafNode c)).filter
          (fun m => decide (m.kind = NodeKind.category)) = [] := by
        rw [List.filter_eq_nil_iff]
        intro a ha
        obtain ⟨q, _, rfl⟩ := List.mem_map.mp ha
        simp [leafNode]
      rw [this, List.nil_append]
    rw [this, List.length_cons, ih]
    simp

theorem leafCount_groupNodes (seed : String) (gs : Groups) :
    ((groupNodes seed gs).filter
        (fun m => decide (m.kind = NodeKind.leaf))).length = sumSizes gs := by
  induction gs with
  | nil => simp [groupNodes, sumSizes]
  | cons p rest ih =>
    obtain ⟨c, ss⟩ := p
    have hblock : (ss.map (leafNode c)).filter
        (fun m => decide (m.kind = NodeKind.leaf)) = ss.map (leafNode c) := by
      rw [List.filter_eq_self]
      intro a ha
      obtain ⟨q, _, rfl⟩ := List.mem_map.mp ha
      simp [leafNode]
    have : (groupNodes seed ((c, ss) :: rest)).filter
        (fun m => decide (m.kind = NodeKind.leaf)) =
        ss.map (leafNode c) ++
          (groupNodes seed rest).filter
            (fun m => decide (m.kind = NodeKind.leaf)) := by
      show ((categoryNode seed c ss :: ss.map (leafNode c)) ++
        groupNodes seed rest).filter _ = _
      rw [List.cons_append, List.filter_cons, if_neg (by simp [categoryNode]),
        List.filter_append, hblock]
    rw [this, List.length_append, List.length_map, ih]
    simp [sumSizes]

/-! ### Claim theorems -/

/-- C1 counterexample: a response that decodes successfully (the `Raw`
fallback is not taken) yet whose category map has a non-canonical key and
a list longer than the caller-supplied maximum 1, so it does not conform
to the schema of section 4.2. The `response_schema` argument is commented
out at `fanout_generator.py` line 182, and the decode step performs no
validation of its own. -/
theorem c1_schema_counterexample :
    getCategories
        (Json.obj [("categories",
          Json.obj [("foo", Json.arr [Json.str "a", Json.str "b"])])]) =
      some (Json.obj [("foo", Json.arr [Json.str "a", Json.str "b"])]) ∧
    decodeCategories
        (some (Json.obj [("categories",
          Json.obj [("foo", Json.arr [Json.str "a", Json.str "b"])])])) "x" =
      Json.obj [("foo", Json.arr [Json.str "a", Json.str "b"])] ∧
    conformsToCategoriesSchema 1
        (Json.obj [("foo", Json.arr [Json.str "a", Json.str "b"])]) = false :=
  ⟨rfl, rfl, rfl⟩

/-- C1 (amended): whenever the adapter decodes successfully, it returns
the parsed `categories` value entirely unvalidated; in particular the
schema of section 4.2 holds for the returned map exactly when the parsed
value itself already conforms to it. -/
theorem c1_decode_passthrough (text : String) (j c : Json)
    (maxPerCategory : Nat) (h : getCategories j = some c) :
    decodeCategories (some j) text = c ∧
    (conformsToCategoriesSchema maxPerCategory c = true →
      conformsToCategoriesSchema maxPerCategory
        (decodeCategories (some j) text) = true) := by
  have hd : decodeCategories (some j) text = c := by
    simp [decodeCategories, h]
  exact ⟨hd, fun hc => hd ▸ hc⟩

/-- C1 witness for `c1_decode_passthrough` at a concrete parsed value. -/
theorem c1_decode_passthrough_witness :
    decodeCategories (some (Json.obj [("categories", Json.str "z")])) "t" =
      Json.str "z" ∧
    (conformsToCategoriesSchema 8 (Json.str "z") = true →
      conformsToCategoriesSchema 8
        (decodeCategories
          (some (Json.obj [("categories", Json.str "z")])) "t") = true) :=
  c1_decode_passthrough "t" (Json.obj [("categories", Json.str "z")])
    (Json.str "z") 8 rfl

/-- C3: the decode policy of the adapter. If the parsed value is
well-formed structured data containing a `categories` member, that member
is returned; if `json.loads` raises (parse outcome `none`) or the parsed
value lacks the required shape, the result is a single-key map `Raw`
whose one-element list holds the full original text unmodified. -/
theorem c3_decode_policy :
    (∀ (text : String) (j c : Json),
      getCategories j = some c → decodeCategories (some j) text = c) ∧
    (∀ text : String,
      decodeCategories none text =
        Json.obj [("Raw", Json.arr [Json.str text])]) ∧
    (∀ (text : String) (j : Json),
      getCategories j = none →
        decodeCategories (some j) text =
          Json.obj [("Raw", Json.arr [Json.str text])]) := by
  refine ⟨?_, ?_, ?_⟩
  · intro text j c h
    simp [decodeCategories, h]
  · intro text
    rfl
  · intro text j h
    simp [decodeCategories, h, rawFallback]

/-- C3 witness: the policy at concrete inputs — a parse with a
`categories` object, a parse failure, and a parse without the required
shape. -/
theorem c3_decode_policy_witness :
    decodeCategories
        (some (Json.obj [("categories", Json.obj [])])) "t" = Json.obj [] ∧
    decodeCategories none "oops" =
      Json.obj [("Raw", Json.arr [Json.str "oops"])] ∧
    decodeCategories (some (Json.arr [])) "bad" =
      Json.obj [("Raw", Json.arr [Json.str "bad"])] :=
  ⟨c3_decode_policy.1 "t" (Json.obj [("categories", Json.obj [])])
      (Json.obj []) rfl,
   c3_decode_policy.2.1 "oops",
   c3_decode_policy.2.2 "bad" (Json.arr []) rfl⟩

/-- C5: a seed that is empty after trimming makes the adapter return the
validation error with an empty external-step trace: no dependency load,
credential lookup or network call happens first. -/
theorem c5_empty_seed_validation (seed : String) (chunks : List String)
    (parsed : String → Option Json) (h : pyStrip seed = "") :
    generate_fanout_google_genai seed chunks parsed =
      ([], Except.error "Seed keyword must be non-empty") := by
  simp [generate_fanout_google_genai, h]

/-- C5 witness: a whitespace-only seed. -/
theorem c5_empty_seed_validation_witness :
    generate_fanout_google_genai "   " [] (fun _ => none) =
      ([], Except.error "Seed keyword must be non-empty") :=
  c5_empty_seed_validation "   " [] (fun _ => none) (by decide)

/-- C6: the hierarchy builder rejects the empty record sequence with an
error (`ValueError` at `visualize_sunburst.py` lines 51-52), never
returning a root-only tree. -/
theorem c6_empty_rows_rejected : create_sunburst_data [] = none := rfl

/-- C7: the locale detector is a total function on strings; every
ASCII-only string maps to `en`, and every string containing a hiragana,
katakana or CJK ideograph code point maps to `ja`. -/
theorem c7_locale_detector :
    (∀ s : String, (∀ c ∈ s.data, c.toNat ≤ 127) → detect_locale s = "en") ∧
    (∀ s : String,
      (∃ c ∈ s.data,
        isHiraganaCP c ∨ isKatakanaCP c ∨ isCJKIdeographCP c) →
      detect_locale s = "ja") := by
  constructor
  · intro s h
    have hj : is_japanese s = false := by
      rw [is_japanese, Bool.eq_false_iff]
      intro hcontra
      obtain ⟨c, hc, hcc⟩ := List.any_eq_true.mp hcontra
      have hle := h c hc
      simp only [inJapaneseCharClass, Bool.or_eq_true, Bool.and_eq_true,
        decide_eq_true_eq] at hcc
      omega
    simp [detect_locale, hj]
  · intro s h
    obtain ⟨c, hc, hblock⟩ := h
    have hcc : inJapaneseCharClass c = true := by
      simp only [isHiraganaCP, isKatakanaCP, isCJKIdeographCP,
        Bool.or_eq_true, Bool.and_eq_true, decide_eq_true_eq] at hblock
      simp only [inJapaneseCharClass, Bool.or_eq_true, Bool.and_eq_true,
        decide_eq_true_eq]
      omega
    have hj : is_japanese s = true :=
      List.any_eq_true.mpr ⟨c, hc, hcc⟩
    simp [detect_locale, hj]

/-- C7 witness: an ASCII seed detects as `en` and a CJK seed as `ja`. -/
theorem c7_locale_detector_witness :
    detect_locale "tea" = "en" ∧ detect_locale "茶" = "ja" :=
  ⟨c7_locale_detector.1 "tea" (by decide),
   c7_locale_detector.2 "茶" (by decide)⟩

/-- C9: determinism of the non-generation stages. Two runs with identical
seed, locale, stubbed category map and destination path produce the same
bytes at the destination — independent of all prior filesystem state —
and identical hierarchy arrays; the written bytes are exactly the
deterministic CSV serialization. -/
theorem c9_pipeline_determinism (seed locale : String)
    (stub : List (String × List String)) (path : String)
    (fs1 fs2 : FileSystem) :
    (runPipeline seed locale stub path fs1).1 path =
      (runPipeline seed locale stub path fs2).1 path ∧
    (runPipeline seed locale stub path fs1).1 path =
      some (export_to_csv_text seed locale stub) ∧
    (runPipeline seed locale stub path fs1).2 =
      (runPipeline seed locale stub path fs2).2 := by
  refine ⟨?_, ?_, rfl⟩ <;> simp [runPipeline, writeFile]

theorem create_sunburst_data_cons (r : Record) (rest : List Record) :
    create_sunburst_data (r :: rest) =
      some (rootNode r.seed (sumSizes (groupByCategory (r :: rest))) ::
        groupNodes r.seed (groupByCategory (r :: rest))) := rfl

theorem countLeavesUnder_root_cons (seed : String) (t : Nat)
    (l : List SNode) (lbl : String) :
    countLeavesUnder (rootNode seed t :: l) lbl = countLeavesUnder l lbl := by
  simp only [countLeavesUnder, List.filter_cons]
  rw [if_neg (by simp [rootNode])]

theorem categoryValues_root_cons (seed : String) (t : Nat) (l : List SNode) :
    categoryValues (rootNode seed t :: l) = categoryValues l := by
  simp only [categoryValues, List.filter_cons]
  rw [if_neg (by simp [rootNode])]

/-- C2: on any non-empty record sequence the built tree satisfies the
stated invariants — every category node counts exactly its leaves, the
root value is the sum of the category values and equals the record count,
and the node count is 1 + (distinct categories) + (records). -/
theorem c2_hierarchy_invariants (rows : List Record) (h : rows ≠ []) :
    ∃ ns, create_sunburst_data rows = some ns ∧
      (∀ n ∈ ns, n.kind = NodeKind.category →
        n.value = countLeavesUnder ns n.label) ∧
      (∃ rt rest2, ns = rt :: rest2 ∧ rt.kind = NodeKind.root ∧
        rt.value = (categoryValues ns).sum ∧ rt.value = rows.length) ∧
      ns.length = 1 + (rows.map Record.category).dedup.length + rows.length := by
  cases rows with
  | nil => exact absurd rfl h
  | cons r rest =>
    have hnd : (groupKeys (groupByCategory (r :: rest))).Nodup :=
      nodup_groupKeys_groupBy (r :: rest)
    refine ⟨_, create_sunburst_data_cons r rest, ?_, ?_, ?_⟩
    · intro n hn hk
      rcases List.mem_cons.mp hn with rfl | hgn
      · simp [rootNode] at hk
      · obtain ⟨c, ss, hm, rfl | ⟨q, hq, rfl⟩⟩ :=
          (mem_groupNodes_iff _ _ _).mp hgn
        · show (categoryNode r.seed c ss).value = _
          rw [countLeavesUnder_root_cons]
          show ss.length = countLeavesUnder _ (categoryNode r.seed c ss).label
          exact (countLeaves_groupNodes r.seed _ c ss hnd hm).symm
        · simp [leafNode] at hk
    · refine ⟨_, _, rfl, rfl, ?_, ?_⟩
      · rw [categoryValues_root_cons]
        show sumSizes (groupByCategory (r :: rest)) = _
        rw [catValues_groupNodes]
      · show sumSizes (groupByCategory (r :: rest)) = _
        rw [sumSizes_groupBy]
    · simp only [List.length_cons, length_groupNodes]
      have h1 : (groupByCategory (r :: rest)).length =
          ((r :: rest).map Record.category).dedup.length := by
        have := groupKeys_groupBy_length (r :: rest)
        simpa [groupKeys] using this
      rw [h1, sumSizes_groupBy]
      simp [List.length_cons]
      omega

/-- C2 witness: three records over two categories. -/
theorem c2_hierarchy_invariants_witness :
    ∃ ns, create_sunburst_data
        [Record.mk "s" "en" "A" "q1", Record.mk "s" "en" "A" "q2",
         Record.mk "s" "en" "B" "q3"] = some ns ∧
      (∀ n ∈ ns, n.kind = NodeKind.category →
        n.value = countLeavesUnder ns n.label) ∧
      (∃ rt rest2, ns = rt :: rest2 ∧ rt.kind = NodeKind.root ∧
        rt.value = (categoryValues ns).sum ∧
        rt.value = ([Record.mk "s" "en" "A" "q1", Record.mk "s" "en" "A" "q2",
          Record.mk "s" "en" "B" "q3"] : List Record).length) ∧
      ns.length = 1 +
        (([Record.mk "s" "en" "A" "q1", Record.mk "s" "en" "A" "q2",
          Record.mk "s" "en" "B" "q3"] : List Record).map
            Record.category).dedup.length +
        ([Record.mk "s" "en" "A" "q1", Record.mk "s" "en" "A" "q2",
          Record.mk "s" "en" "B" "q3"] : List Record).length :=
  c2_hierarchy_invariants
    [Record.mk "s" "en" "A" "q1", Record.mk "s" "en" "A" "q2",
     Record.mk "s" "en" "B" "q3"] (by simp)

/-- C8: in every built tree, each leaf has the same colour as the
category node it hangs under, and a category node whose name is not in
`CATEGORY_COLORS` — such as the `Raw` fallback — gets the default
`#CCCCCC` rather than failing. -/
theorem c8_category_colors (rows : List Record) (ns : List SNode)
    (h : create_sunburst_data rows = some ns) :
    (∀ n ∈ ns, n.kind = NodeKind.leaf →
      ∃ m ∈ ns, m.kind = NodeKind.category ∧ m.label = n.parent ∧
        m.color = n.color) ∧
    (∀ m ∈ ns, m.kind = NodeKind.category →
      dictGet CATEGORY_COLORS m.label = none → m.color = "#CCCCCC") := by
  cases rows with
  | nil => cases h
  | cons r rest =>
    rw [create_sunburst_data_cons, Option.some.injEq] at h
    subst h
    constructor
    · intro n hn hk
      rcases List.mem_cons.mp hn with rfl | hgn
      · simp [rootNode] at hk
      · obtain ⟨c, ss, hm, rfl | ⟨q, hq, rfl⟩⟩ :=
          (mem_groupNodes_iff _ _ _).mp hgn
        · simp [categoryNode] at hk
        · refine ⟨categoryNode r.seed c ss,
            List.mem_cons.mpr (Or.inr
              ((mem_groupNodes_iff _ _ _).mpr ⟨c, ss, hm, Or.inl rfl⟩)),
            rfl, rfl, rfl⟩
    · intro m hm hk hnone
      rcases List.mem_cons.mp hm with rfl | hgn
      · simp [rootNode] at hk
      · obtain ⟨c, ss, hmm, rfl | ⟨q, hq, rfl⟩⟩ :=
          (mem_groupNodes_iff _ _ _).mp hgn
        · show categoryColor c = "#CCCCCC"
          have : dictGet CATEGORY_COLORS c = none := hnone
          simp [categoryColor, this]
        · simp [leafNode] at hk

/-- C8 witness: a single record under the fallback category `Raw`. -/
theorem c8_category_colors_witness :
    (∀ n ∈ rootNode "s"
          (sumSizes (groupByCategory [Record.mk "s" "en" "Raw" "q"])) ::
        groupNodes "s" (groupByCategory [Record.mk "s" "en" "Raw" "q"]),
      n.kind = NodeKind.leaf →
      ∃ m ∈ rootNode "s"
            (sumSizes (groupByCategory [Record.mk "s" "en" "Raw" "q"])) ::
          groupNodes "s" (groupByCategory [Record.mk "s" "en" "Raw" "q"]),
        m.kind = NodeKind.category ∧ m.label = n.parent ∧
          m.color = n.color) ∧
    (∀ m ∈ rootNode "s"
          (sumSizes (groupByCategory [Record.mk "s" "en" "Raw" "q"])) ::
        groupNodes "s" (groupByCategory [Record.mk "s" "en" "Raw" "q"]),
      m.kind = NodeKind.category →
      dictGet CATEGORY_COLORS m.label = none → m.color = "#CCCCCC") :=
  c8_category_colors [Record.mk "s" "en" "Raw" "q"] _ rfl

/-- C10: the hierarchy builder takes the root label from the first record
only; a record sequence whose records carry differing seed values is
still accepted, with every category node attached under the single root
labelled by the first seed, and no error raised. -/
theorem c10_first_record_seed (r : Record) (rest : List Record)
    (h : ∃ r2 ∈ rest, r2.seed ≠ r.seed) :
    ∃ ns, create_sunburst_data (r :: rest) = some ns ∧
      (∃ rt rest2, ns = rt :: rest2 ∧ rt.kind = NodeKind.root ∧
        rt.label = r.seed) ∧
      (∀ n ∈ ns, n.kind = NodeKind.category → n.parent = r.seed) := by
  refine ⟨_, create_sunburst_data_cons r rest, ⟨_, _, rfl, rfl, rfl⟩, ?_⟩
  intro n hn hk
  rcases List.mem_cons.mp hn with rfl | hgn
  · simp [rootNode] at hk
  · obtain ⟨c, ss, hm, rfl | ⟨q, hq, rfl⟩⟩ :=
      (mem_groupNodes_iff _ _ _).mp hgn
    · rfl
    · simp [leafNode] at hk

/-- C10 witness: two records with different seeds. -/
theorem c10_first_record_seed_witness :
    ∃ ns, create_sunburst_data
        (Record.mk "a" "en" "c" "q" :: [Record.mk "b" "en" "c" "q2"]) =
          some ns ∧
      (∃ rt rest2, ns = rt :: rest2 ∧ rt.kind = NodeKind.root ∧
        rt.label = (Record.mk "a" "en" "c" "q").seed) ∧
      (∀ n ∈ ns, n.kind = NodeKind.category →
        n.parent = (Record.mk "a" "en" "c" "q").seed) :=
  c10_first_record_seed (Record.mk "a" "en" "c" "q")
    [Record.mk "b" "en" "c" "q2"]
    ⟨Record.mk "b" "en" "c" "q2", by simp, by decide⟩

/-! ### Export and rebuild lemmas -/

theorem addToGroups_notMem (gs : Groups) (cat q : String)
    (h : cat ∉ groupKeys gs) :
    addToGroups gs cat q = gs ++ [(cat, [q])] := by
  induction gs with
  | nil => rfl
  | cons p rest ih =>
    obtain ⟨c, ss⟩ := p
    simp only [groupKeys, List.map_cons, List.mem_cons, not_or] at h
    have hne : ¬ (c = cat) := fun hh => h.1 hh.symm
    simp only [addToGroups, if_neg hne, List.cons_append]
    rw [ih (by simpa [groupKeys] using h.2)]

theorem addToGroups_append_last (gs : Groups) (cat q : String)
    (acc : List String) (h : cat ∉ groupKeys gs) :
    addToGroups (gs ++ [(cat, acc)]) cat q = gs ++ [(cat, acc ++ [q])] := by
  induction gs with
  | nil => simp [addToGroups]
  | cons p rest ih =>
    obtain ⟨c, ss⟩ := p
    simp only [groupKeys, List.map_cons, List.mem_cons, not_or] at h
    have hne : ¬ (c = cat) := fun hh => h.1 hh.symm
    simp only [List.cons_append, addToGroups, if_neg hne, List.append_eq]
    rw [ih (by simpa [groupKeys] using h.2)]

theorem foldl_group_block (s l cat : String) (qs : List String)
    (gs : Groups) (h : cat ∉ groupKeys gs) : ∀ acc : List String,
    (qs.map (fun q => Record.mk s l cat q)).foldl groupStep
        (gs ++ [(cat, acc)]) = gs ++ [(cat, acc ++ qs)] := by
  induction qs with
  | nil => intro acc; simp
  | cons q rest ih =>
    intro acc
    simp only [List.map_cons, List.foldl_cons, groupStep]
    rw [addToGroups_append_last gs cat q acc h, ih (acc ++ [q])]
    simp

theorem groupBy_flatten_aux (s l : String)
    (cats : List (String × List String)) : ∀ gs : Groups,
    (cats.map Prod.fst).Nodup →
    (∀ c ∈ cats.map Prod.fst, c ∉ groupKeys gs) →
    (flattenRows s l cats).foldl groupStep gs =
      gs ++ cats.filter (fun p => decide (p.2 ≠ [])) := by
  induction cats with
  | nil => intro gs _ _; simp [flattenRows]
  | cons p rest ih =>
    intro gs hnd hdisj
    obtain ⟨c, qs⟩ := p
    simp only [List.map_cons, List.nodup_cons] at hnd
    have hc : c ∉ groupKeys gs := hdisj c (by simp)
    simp only [flattenRows, List.foldl_append]
    cases qs with
    | nil =>
      simp only [List.map_nil, List.foldl_nil]
      rw [ih gs hnd.2 (fun c2 hc2 => hdisj c2 (by simp [hc2]))]
      simp
    | cons q qs2 =>
      simp only [List.map_cons, List.foldl_cons, groupStep]
      have h1 : addToGroups gs c q = gs ++ [(c, [q])] :=
        addToGroups_notMem gs c q hc
      show List.foldl groupStep
        (List.foldl groupStep (addToGroups gs c q)
          (qs2.map (fun q2 => Record.mk s l c q2)))
        (flattenRows s l rest) = _
      rw [h1, foldl_group_block s l c qs2 gs hc [q]]
      simp only [List.singleton_append]
      rw [ih (gs ++ [(c, q :: qs2)]) hnd.2 ?hdisj2]
      · simp
      case hdisj2 =>
        intro c2 hc2
        simp only [groupKeys, List.map_append, List.mem_append,
          List.map_cons, List.map_nil, List.mem_cons, not_or]
        refine ⟨?_, ?_, by simp⟩
        · have := hdisj c2 (by simp [hc2])
          simpa [groupKeys] using this
        · intro hcc
          exact hnd.1 (hcc ▸ hc2)

theorem groupBy_flattenRows (s l : String)
    (cats : List (String × List String))
    (hnd : (cats.map Prod.fst).Nodup) :
    groupByCategory (flattenRows s l cats) =
      cats.filter (fun p => decide (p.2 ≠ [])) := by
  simpa using groupBy_flatten_aux s l cats [] hnd (by simp [groupKeys])

theorem sumSizes_filter_nonempty (cats : List (String × List String)) :
    sumSizes (cats.filter (fun p => decide (p.2 ≠ []))) = sumSizes cats := by
  induction cats with
  | nil => rfl
  | cons p rest ih =>
    obtain ⟨c, qs⟩ := p
    cases qs with
    | nil => simpa [sumSizes] using ih
    | cons q qs2 =>
      simp only [List.filter_cons, decide_eq_true_eq]
      rw [if_pos (by simp)]
      simp only [sumSizes, List.map_cons, List.sum_cons] at ih ⊢
      omega

theorem length_flattenRows (s l : String)
    (cats : List (String × List String)) :
    (flattenRows s l cats).length = sumSizes cats := by
  induction cats with
  | nil => rfl
  | cons p rest ih =>
    obtain ⟨c, qs⟩ := p
    simp only [flattenRows, List.length_append, List.length_map, ih,
      sumSizes, List.map_cons, List.sum_cons]

/-- C4 counterexample: the category map holding all eight canonical keys
with empty lists is a valid input by the claim, yet flattening it yields
no rows and the hierarchy builder then raises instead of yielding a
tree. -/
theorem c4_all_empty_counterexample :
    create_sunburst_data
      (flattenRows "s" "en"
        (canonicalCategories.map (fun c => (c, ([] : List String))))) =
      none := rfl

/-- C4 (amended): for every category map whose keys are exactly the eight
canonical names in any order and that carries at least one record,
flattening followed by the hierarchy builder yields a tree whose
category-node count is the number of categories with at least one record
and whose leaf count is the total record count. -/
theorem c4_roundtrip_counts (seed locale : String)
    (cats : List (String × List String))
    (hperm : List.Perm (cats.map Prod.fst) canonicalCategories)
    (hne : flattenRows seed locale cats ≠ []) :
    ∃ ns, create_sunburst_data (flattenRows seed locale cats) = some ns ∧
      ((ns.filter (fun m => decide (m.kind = NodeKind.category))).length =
        (cats.filter (fun p => decide (p.2 ≠ []))).length) ∧
      ((ns.filter (fun m => decide (m.kind = NodeKind.leaf))).length =
        (flattenRows seed locale cats).length) := by
  have hnd : (cats.map Prod.fst).Nodup :=
    hperm.nodup_iff.mpr (by decide)
  have hgs : groupByCategory (flattenRows seed locale cats) =
      cats.filter (fun p => decide (p.2 ≠ [])) :=
    groupBy_flattenRows seed locale cats hnd
  cases hrows : flattenRows seed locale cats with
  | nil => exact absurd hrows hne
  | cons r rest =>
    rw [hrows] at hgs
    refine ⟨_, create_sunburst_data_cons r rest, ?_, ?_⟩
    · simp only [List.filter_cons]
      rw [if_neg (by simp [rootNode])]
      rw [catCount_groupNodes, hgs]
    · simp only [List.filter_cons]
      rw [if_neg (by simp [rootNode])]
      rw [leafCount_groupNodes, hgs, sumSizes_filter_nonempty,
        ← length_flattenRows seed locale cats, hrows]

/-- C4 witness: the eight canonical categories, one subquery each. -/
theorem c4_roundtrip_counts_witness :
    ∃ ns, create_sunburst_data
        (flattenRows "s" "en"
          (canonicalCategories.map (fun c => (c, ["q"])))) = some ns ∧
      ((ns.filter (fun m => decide (m.kind = NodeKind.category))).length =
        ((canonicalCategories.map (fun c => (c, ["q"]))).filter
          (fun p => decide (p.2 ≠ []))).length) ∧
      ((ns.filter (fun m => decide (m.kind = NodeKind.leaf))).length =
        (flattenRows "s" "en"
          (canonicalCategories.map (fun c => (c, ["q"])))).length) :=
  c4_roundtrip_counts "s" "en" (canonicalCategories.map (fun c => (c, ["q"])))
    (by
      have hk : (canonicalCategories.map (fun c => (c, ["q"]))).map Prod.fst =
          canonicalCategories := rfl
      rw [hk])
    (by decide)
